import Mathlib

/-!
Shallow embedding of the string pattern-matching core of jsonata-go
(file jlib/string.go): the matcher protocol driver, the match consumers
(Contains, Split, Match), the replacement engine (Replace) and the token
expander for dollar references in replacement strings.

Go strings are modelled as `List Char`; Go slice expressions
`s[i:j]`, `s[:j]`, `s[i:]` are modelled with `List.take` / `List.drop`
(Go panics when an index is out of `0 ≤ i ≤ j ≤ len`; the bound
conditions required by Go are captured separately by the
`splitSlicesOk` / `replaceSlicesOk` predicates below). Go `int` values
are modelled as `Int`; Go integer arithmetic wraps at 2^63, which is
immaterial for the properties considered here (noted at the theorems
where a bound keeps the model inside the faithful range).
-/

namespace JlibStr

/-- Error values of the string core. Each constructor stands for one
distinct Go error message produced in jlib/string.go. -/
inductive Err where
  /-- match function must return an object -/
  | matchNotObject : Err
  /-- match function must return an object with a string value named match -/
  | matchBadMatch : Err
  /-- match function must return an object with a number value named start -/
  | matchBadStart : Err
  /-- match function must return an object with a number value named end -/
  | matchBadEnd : Err
  /-- match function must return an object with a string array value named groups -/
  | matchBadGroups : Err
  /-- match function must return an object with a Callable value named next -/
  | matchBadNext : Err
  /-- function contains takes a string or a regex -/
  | containsBadPattern : Err
  /-- third argument of the split function must evaluate to a positive number -/
  | splitNegativeLimit : Err
  /-- function split takes a string or a regex -/
  | splitBadSeparator : Err
  /-- third argument of function match must evaluate to a positive number -/
  | matchNegativeLimit : Err
  /-- fourth argument of function replace must evaluate to a positive number -/
  | replaceNegativeLimit : Err
  /-- second argument of function replace must be a string or a regex -/
  | replaceBadPattern : Err
  /-- second argument of function replace cannot be an empty string -/
  | replaceEmptyPattern : Err
  /-- third argument of function replace must be a string when pattern is a string -/
  | replaceReplNotString : Err
  /-- third argument of function replace must be a string or a function -/
  | replaceReplBadType : Err
  /-- third argument of function replace must be a function that returns a string -/
  | replaceFnNotString : Err
deriving DecidableEq

/-- Go struct `match` of jlib/string.go: value (matched text),
indexes (the start and end offsets as a pair, `indexes[0]` and
`indexes[1]`), and groups (captured group strings). -/
structure MatchRecord where
  value : List Char
  indexes : Int × Int
  groups : List (List Char)
deriving DecidableEq

/-- Object of the form built by `Match` and passed to a replacement
callable by `callReplaceFunc`: keys match, index and groups. -/
structure MatchObj where
  value : List Char
  index : Int
  groups : List (List Char)
deriving DecidableEq

/-- Raw value returned by one invocation of a matcher capability (or of
a continuation), before structural validation by `callMatchFunc`.
`isObject` models the `jtypes.IsMap` test; each field is `none` when the
corresponding key is missing or has the wrong type (both cases make the
Go accessor fail); `next` records whether the next field held a
callable. Numbers are modelled as `Int` (Go converts the float64 with
`int(...)`). -/
structure RawResult where
  isObject : Bool
  matchF : Option (List Char)
  startF : Option Int
  endF : Option Int
  groupsF : Option (List (List Char))
  nextF : Bool
deriving DecidableEq

/-- Pattern argument of Contains, Split and Replace
(the `StringCallable` switch in the Go source): a literal string, a
matcher capability, or a value of any other type. A matcher capability
is modelled extensionally by the sequence of raw results its successive
invocations return; when the list is exhausted the next invocation
returns an invalid (absent) result, which ends the match sequence. -/
inductive Pattern where
  | lit : List Char → Pattern
  | matcher : List RawResult → Pattern
  | invalid : Pattern

/-- Replacement argument of Replace: a literal string, a replacement
callable (receiving the match object; `none` models a non-string return
value), or a value of any other type. -/
inductive Repl where
  | lit : List Char → Repl
  | fn : (MatchObj → Option (List Char)) → Repl
  | invalid : Repl

/-- Structural validation performed by `callMatchFunc` on one raw
result, in source order: object check, then the match, start, end,
groups and next fields. -/
def validateResult (r : RawResult) : Except Err MatchRecord :=
  if r.isObject = false then .error .matchNotObject
  else match r.matchF with
  | none => .error .matchBadMatch
  | some value =>
    match r.startF with
    | none => .error .matchBadStart
    | some start =>
      match r.endF with
      | none => .error .matchBadEnd
      | some stop =>
        match r.groupsF with
        | none => .error .matchBadGroups
        | some groups =>
          if r.nextF = false then .error .matchBadNext
          else .ok ⟨value, (start, stop), groups⟩

/-- Go function `callMatchFunc`: invoke the capability, stop on an
invalid (absent) result, abort on a malformed result, otherwise append
the validated match and recurse on the continuation. The accumulated
matches are discarded when an error occurs. -/
def callMatchFunc (steps : List RawResult) (acc : List MatchRecord) : Except Err (List MatchRecord) :=
  match steps with
  | [] => .ok acc
  | r :: rest =>
    match validateResult r with
    | .error e => .error e
    | .ok m => callMatchFunc rest (acc ++ [m])

/-- Number of capability invocations performed by `callMatchFunc`:
one per validated result, plus the final invocation that returns the
terminal (absent) result, or exactly one invocation past the last valid
result when validation fails. Mirrors the recursion of
`callMatchFunc`. -/
def callMatchCalls (steps : List RawResult) : Nat :=
  match steps with
  | [] => 1
  | r :: rest =>
    match validateResult r with
    | .error _ => 1
    | .ok _ => 1 + callMatchCalls rest

/-- Go function `extractMatches`: drain the capability, then truncate
to `limit` matches when `0 ≤ limit < len(matches)`. -/
def extractMatches (steps : List RawResult) (limit : Int) : Except Err (List MatchRecord) :=
  match callMatchFunc steps [] with
  | .error e => .error e
  | .ok ms =>
    .ok (if 0 ≤ limit ∧ limit < (ms.length : Int) then ms.take limit.toNat else ms)

/-- Go slice expression `s[:j]` (Go panics unless `0 ≤ j ≤ len s`). -/
def goTake (s : List Char) (j : Int) : List Char := s.take j.toNat

/-- Go slice expression `s[i:]` (Go panics unless `0 ≤ i ≤ len s`). -/
def goDrop (s : List Char) (i : Int) : List Char := s.drop i.toNat

/-- Go slice expression `s[i:j]` (Go panics unless `0 ≤ i ≤ j ≤ len s`). -/
def goSlice (s : List Char) (i j : Int) : List Char := (s.take j.toNat).drop i.toNat

/-- Go test `strings.Contains(s, substr)`: substr occurs in s. -/
def stringsContains (s substr : List Char) : Bool :=
  match s with
  | [] => substr.isEmpty
  | _ :: rest => substr.isPrefixOf s || stringsContains rest substr

/-- Go function `Contains`: literal pattern means substring containment,
matcher pattern means the driver (invoked with limit -1, that is,
unbounded) yields at least one match; any other pattern type is an
argument error. -/
def Contains (s : List Char) (pattern : Pattern) : Except Err Bool :=
  match pattern with
  | .lit v => .ok (stringsContains s v)
  | .matcher steps =>
    match extractMatches steps (-1) with
    | .error e => .error e
    | .ok ms => .ok (decide (0 < ms.length))
  | .invalid => .error .containsBadPattern

/-- Go call `strings.Split(s, sep)`: with an empty separator, one
segment per character; otherwise split on each left-to-right
non-overlapping occurrence of the separator. -/
def stringsSplit (s sep : List Char) : List (List Char) :=
  if hsep : sep = [] then s.map (fun c => [c])
  else
    match s with
    | [] => [[]]
    | c :: rest =>
      if sep.isPrefixOf (c :: rest) then
        [] :: stringsSplit ((c :: rest).drop sep.length) sep
      else
        match stringsSplit rest sep with
        | [] => [[c]]
        | p :: ps => (c :: p) :: ps
termination_by s.length
decreasing_by
  · simp only [List.length_drop]
    have : 0 < sep.length := List.length_pos.mpr hsep
    simp only [List.length_cons]
    omega
  · simp only [List.length_cons]
    omega

/-- Segment construction of `Split` for a matcher separator: one
segment `s[pos:start]` per match, plus the trailing segment `s[pos:]`.
Mirrors the loop over the matches with running position `pos`. -/
def splitSegments (s : List Char) (pos : Int) (ms : List MatchRecord) : List (List Char) :=
  match ms with
  | [] => [goDrop s pos]
  | m :: rest => goSlice s pos m.indexes.1 :: splitSegments s m.indexes.2 rest

/-- Truncation applied at the end of `Split`: when a limit is set and
smaller than the number of segments, keep the first `limit` segments. -/
def truncParts (limit : Option Int) (parts : List (List Char)) : List (List Char) :=
  match limit with
  | none => parts
  | some n => if n < (parts.length : Int) then parts.take n.toNat else parts

/-- Go function `Split`. The limit is an optional int whose zero value
is 0 when unset (so the negative-limit check only fires for a set
negative limit); a matcher separator is drained unbounded (limit -1)
and the segment list is truncated afterwards. -/
def Split (s : List Char) (separator : Pattern) (limit : Option Int) : Except Err (List (List Char)) :=
  if (limit.getD 0) < 0 then .error .splitNegativeLimit
  else
    match separator with
    | .lit sep => .ok (truncParts limit (stringsSplit s sep))
    | .matcher steps =>
      match extractMatches steps (-1) with
      | .error e => .error e
      | .ok ms => .ok (truncParts limit (splitSegments s 0 ms))
    | .invalid => .error .splitBadSeparator

/-- Number of capability invocations performed by `Split`: none when
the negative-limit check fails first or the separator is not a matcher;
otherwise `Split` calls `extractMatches` once, whose drain does not
depend on the limit. Mirrors the control flow of `Split`. -/
def splitCalls (separator : Pattern) (limit : Option Int) : Nat :=
  if (limit.getD 0) < 0 then 0
  else
    match separator with
    | .matcher steps => callMatchCalls steps
    | _ => 0

/-- Go function `Match`: negative set limit is an argument error; the
driver runs with the set limit, or -1 (unbounded) when unset; each
match becomes an object with keys match, index and groups. -/
def Match (s : List Char) (steps : List RawResult) (limit : Option Int) : Except Err (List MatchObj) :=
  if (limit.getD 0) < 0 then .error .matchNegativeLimit
  else
    match extractMatches steps (limit.getD (-1)) with
    | .error e => .error e
    | .ok ms => .ok (ms.map (fun m => ⟨m.value, m.indexes.1, m.groups⟩))

/-- Digit test used by the token expander: the Go loop breaks on
`r < rune 0 or r > rune 9`, so it continues exactly on decimal digits. -/
def isDigitCh (r : Char) : Bool := !(decide (r < '0') || decide ('9' < r))

/-- Go expression `int(r - rune 0)` for a digit rune. -/
def runeVal (r : Char) : Int := (r.toNat : Int) - ('0'.toNat : Int)

/-- Value accumulated by the inner loop of `runesToNumbers` over a
digit list: the decimal value of the digit string. -/
def digitsVal (ds : List Char) : Int :=
  ds.foldl (fun acc r => acc * 10 + runeVal r) 0

/-- Go function `runesToNumbers`: entry i is the decimal value of the
first i+1 digits (the inner loop recomputes each prefix from
scratch). -/
def runesToNumbers (runes : List Char) : List Int :=
  (List.range runes.length).map (fun i => digitsVal (runes.take (i + 1)))

/-- Backward scan of the group-reference loop in `expandReplaceString`:
starting from the longest digit prefix, accept the first index i (a
0-based position into `indexes`, scanned from `fuel - 1` down to 0)
whose 1-based value minus one is below the group count; return that
position together with the group text. -/
def groupSearch (indexes : List Int) (groups : List (List Char)) (fuel : Nat) : Option (Nat × List Char) :=
  match fuel with
  | 0 => none
  | i + 1 =>
    let index := indexes.getD i 0 - 1
    if index < (groups.length : Int) then some (i, groups.getD index.toNat [])
    else groupSearch indexes groups i

/-- Go function `expandReplaceString`, scanning the replacement string
left to right. The Go loop copies the run up to the next dollar sign in
bulk; here the run is emitted one character at a time, which yields the
same output. After a dollar sign: end of input emits a dollar; a second
dollar emits one dollar and consumes it; a non-digit emits a dollar
without consuming the character; digit zero emits the full matched
text; otherwise the digit run is resolved through `groupSearch`
(longest prefix first); when no prefix fits, nothing is emitted and the
scan resumes after the first digit. -/
def expandReplaceString (m : MatchRecord) (s : List Char) : List Char :=
  match s with
  | [] => []
  | [c] => if c = '$' then ['$'] else [c]
  | c :: r :: rest2 =>
    if c = '$' then
      if r = '$' then '$' :: expandReplaceString m rest2
      else if r < '0' ∨ '9' < r then '$' :: expandReplaceString m (r :: rest2)
      else if r = '0' then m.value ++ expandReplaceString m rest2
      else
        let digits := (r :: rest2).takeWhile isDigitCh
        let indexes := runesToNumbers digits
        match groupSearch indexes m.groups indexes.length with
        | some ig => ig.2 ++ expandReplaceString m ((r :: rest2).drop (ig.1 + 1))
        | none => expandReplaceString m rest2
    else c :: expandReplaceString m (r :: rest2)
termination_by s.length
decreasing_by
  · simp only [List.length_cons]; omega
  · simp only [List.length_cons]; omega
  · simp only [List.length_cons]; omega
  · simp only [List.length_cons, List.length_drop]; omega
  · simp only [List.length_cons]; omega
  · simp only [List.length_cons]; omega

/-- Go call `strings.Replace(src, old, new, n)` for a non-empty old
string: left-to-right bounded substitution, where a negative n means no
bound. (`replaceString` rejects an empty old string before this runs;
for an empty old string Go would instead insert between characters,
a case this model does not need.) -/
def stringsReplace (s old new : List Char) (n : Int) : List Char :=
  if n = 0 then s
  else
    match s with
    | [] => []
    | c :: rest =>
      if h : old ≠ [] ∧ old.isPrefixOf (c :: rest) then
        new ++ stringsReplace ((c :: rest).drop old.length) old new (n - 1)
      else c :: stringsReplace rest old new n
termination_by s.length
decreasing_by
  · have : 0 < old.length := List.length_pos.mpr h.1
    simp only [List.length_drop, List.length_cons]
    omega
  · simp only [List.length_cons]; omega

/-- Specification-side definition, following the spec words for the
unbounded case of literal replacement: replace every left-to-right
non-overlapping occurrence of old, with no bound. -/
def replaceAllSpec (s old new : List Char) : List Char :=
  match s with
  | [] => []
  | c :: rest =>
    if h : old ≠ [] ∧ old.isPrefixOf (c :: rest) then
      new ++ replaceAllSpec ((c :: rest).drop old.length) old new
    else c :: replaceAllSpec rest old new
termination_by s.length
decreasing_by
  · have : 0 < old.length := List.length_pos.mpr h.1
    simp only [List.length_drop, List.length_cons]
    omega
  · simp only [List.length_cons]; omega

/-- Go function `replaceString` (literal pattern path of Replace):
empty pattern is an argument error, a non-string replacement is an
argument error, otherwise an ordinary bounded literal substitution. -/
def replaceString (src pattern : List Char) (repl : Repl) (limit : Int) : Except Err (List Char) :=
  if pattern = [] then .error .replaceEmptyPattern
  else
    match repl with
    | .lit s => .ok (stringsReplace src pattern s limit)
    | _ => .error .replaceReplNotString

/-- Loop of `replaceMatchFunc` over the matches, from the last match to
the first (the list argument is the reversed match list): compute the
replacement text for the match, then splice it over the span of the
match in the current subject. -/
def replaceLoop (getRepl : MatchRecord → Except Err (List Char)) (src : List Char) (ms : List MatchRecord) : Except Err (List Char) :=
  match ms with
  | [] => .ok src
  | m :: rest =>
    match getRepl m with
    | .error e => .error e
    | .ok repl => replaceLoop getRepl (goTake src m.indexes.1 ++ repl ++ goDrop src m.indexes.2) rest

/-- Go function `replaceMatchFunc` (matcher pattern path of Replace):
classify the replacement (string with its expandability, callable, or
error), drain the matcher bounded by the limit, then apply the
substitutions from the last match to the first. A literal replacement
containing a dollar sign is expanded per match; a replacement callable
receives the match object and must return a string. -/
def replaceMatchFunc (src : List Char) (steps : List RawResult) (repl : Repl) (limit : Int) : Except Err (List Char) :=
  match repl with
  | .invalid => .error .replaceReplBadType
  | .lit srepl =>
    let expandable := srepl.contains '$'
    match extractMatches steps limit with
    | .error e => .error e
    | .ok ms =>
      replaceLoop (fun m => .ok (if expandable then expandReplaceString m srepl else srepl)) src ms.reverse
  | .fn f =>
    match extractMatches steps limit with
    | .error e => .error e
    | .ok ms =>
      replaceLoop
        (fun m =>
          match f ⟨m.value, m.indexes.1, m.groups⟩ with
          | some r => .ok r
          | none => .error .replaceFnNotString)
        src ms.reverse

/-- Go function `Replace`: negative set limit is an argument error;
a literal pattern goes to `replaceString`, a matcher pattern to
`replaceMatchFunc`, anything else is an argument error. The bound is
the set limit, or -1 (unbounded) when unset. -/
def Replace (src : List Char) (pattern : Pattern) (repl : Repl) (limit : Option Int) : Except Err (List Char) :=
  if (limit.getD 0) < 0 then .error .replaceNegativeLimit
  else
    match pattern with
    | .lit p => replaceString src p repl (limit.getD (-1))
    | .matcher steps => replaceMatchFunc src steps repl (limit.getD (-1))
    | .invalid => .error .replaceBadPattern

/-- Well-formedness of a match sequence over a subject of length `len`,
starting from position `pos`: each match starts at or after the current
position, ends at or after its start, and the final position is at most
`len` (so, by transitivity, every offset lies in `[pos, len]`). This is
the forward-progression invariant the spec assigns to matcher
capabilities. -/
def chainOK (pos : Int) (ms : List MatchRecord) (len : Int) : Bool :=
  match ms with
  | [] => decide (pos ≤ len)
  | m :: rest =>
    decide (pos ≤ m.indexes.1) && decide (m.indexes.1 ≤ m.indexes.2) &&
      chainOK m.indexes.2 rest len

/-- Bound conditions Go imposes on the slice expressions evaluated by
the matcher branch of `Split`: each `s[pos:start]` needs
`0 ≤ pos ≤ start ≤ len s`, and the trailing `s[pos:]` needs
`0 ≤ pos ≤ len s`. -/
def splitSlicesOk (s : List Char) (pos : Int) (ms : List MatchRecord) : Bool :=
  match ms with
  | [] => decide (0 ≤ pos) && decide (pos ≤ (s.length : Int))
  | m :: rest =>
    decide (0 ≤ pos) && decide (pos ≤ m.indexes.1) &&
      decide (m.indexes.1 ≤ (s.length : Int)) && splitSlicesOk s m.indexes.2 rest

/-- Bound conditions Go imposes on the slice expressions evaluated by
the loop of `replaceMatchFunc`, processed in reverse match order: at
each step, over the current subject of length `len`, the expressions
`src[:start]` and `src[end:]` need `0 ≤ start ≤ len` and
`0 ≤ end ≤ len`; the next step sees the spliced length
`start + replacement length + (len - end)`. The list pairs each match
with the length of its replacement text. -/
def replaceSlicesOk (len : Int) (l : List (MatchRecord × Nat)) : Bool :=
  match l with
  | [] => true
  | (m, rlen) :: rest =>
    decide (0 ≤ m.indexes.1) && decide (m.indexes.1 ≤ len) &&
      decide (0 ≤ m.indexes.2) && decide (m.indexes.2 ≤ len) &&
      replaceSlicesOk (m.indexes.1 + (rlen : Int) + (len - m.indexes.2)) rest

/-- Interleaved concatenation claimed for the replacement output:
`src[pos:start 1] ++ rho m1 ++ src[end 1:start 2] ++ ... ++ src[end k:]`,
where `rho` gives the replacement text of each match. -/
def replacedConcat (rho : MatchRecord → List Char) (src : List Char) (pos : Int) (ms : List MatchRecord) : List Char :=
  match ms with
  | [] => goDrop src pos
  | m :: rest => goSlice src pos m.indexes.1 ++ rho m ++ replacedConcat rho src m.indexes.2 rest

/-- Interleaving of split segments with separator texts:
`p 0 ++ v 1 ++ p 1 ++ v 2 ++ ... ++ p k`. -/
def interleave (parts seps : List (List Char)) : List Char :=
  match parts, seps with
  | [], _ => []
  | p :: ps, [] => p ++ interleave ps []
  | p :: ps, v :: vs => p ++ v ++ interleave ps vs

/-- Well-typed raw matcher result with the given value, span and
groups. -/
def okStep (v : List Char) (a b : Int) (g : List (List Char)) : RawResult :=
  ⟨true, some v, some a, some b, some g, true⟩

/-- Raw matcher result whose groups field is missing (the contract
violation used as the concrete example in the spec). -/
def stepNoGroups : RawResult :=
  ⟨true, some ['b'], some 1, some 2, none, true⟩

/-! Helper lemmas about the matcher protocol driver. -/

theorem callMatchFunc_acc : ∀ (steps : List RawResult) (acc : List MatchRecord),
    callMatchFunc steps acc =
      match callMatchFunc steps [] with
      | .ok ms => .ok (acc ++ ms)
      | .error e => .error e := by
  intro steps
  induction steps with
  | nil => intro acc; simp [callMatchFunc]
  | cons r rest ih =>
    intro acc
    simp only [callMatchFunc]
    cases hv : validateResult r with
    | error e => rfl
    | ok m =>
      dsimp only
      rw [ih (acc ++ [m]), ih ([] ++ [m])]
      cases callMatchFunc rest [] <;> simp

theorem callMatchFunc_all_valid : ∀ (steps : List RawResult),
    (∀ r ∈ steps, (validateResult r).isOk = true) →
    ∃ ms, callMatchFunc steps [] = .ok ms ∧ ms.length = steps.length := by
  intro steps
  induction steps with
  | nil => exact fun _ => ⟨[], rfl, rfl⟩
  | cons r rest ih =>
    intro h
    have hr : (validateResult r).isOk = true := h r (by simp)
    cases hv : validateResult r with
    | error e => rw [hv] at hr; simp [Except.isOk, Except.toBool] at hr
    | ok m =>
      obtain ⟨ms, hms, hlen⟩ := ih (fun x hx => h x (by simp [hx]))
      refine ⟨m :: ms, ?_, by simp [hlen]⟩
      simp only [callMatchFunc, hv]
      rw [callMatchFunc_acc rest ([] ++ [m]), hms]
      simp

theorem callMatchCalls_all_valid : ∀ (steps : List RawResult),
    (∀ r ∈ steps, (validateResult r).isOk = true) →
    callMatchCalls steps = steps.length + 1 := by
  intro steps
  induction steps with
  | nil => exact fun _ => rfl
  | cons r rest ih =>
    intro h
    have hr : (validateResult r).isOk = true := h r (by simp)
    cases hv : validateResult r with
    | error e => rw [hv] at hr; simp [Except.isOk, Except.toBool] at hr
    | ok m =>
      simp only [callMatchCalls, hv]
      rw [ih (fun x hx => h x (by simp [hx]))]
      simp only [List.length_cons]
      omega

theorem callMatchFunc_error_mid : ∀ (pre : List RawResult),
    (∀ r ∈ pre, (validateResult r).isOk = true) →
    ∀ (bad : RawResult) (e : Err), validateResult bad = .error e →
    ∀ (post : List RawResult) (acc : List MatchRecord),
    callMatchFunc (pre ++ bad :: post) acc = .error e := by
  intro pre
  induction pre with
  | nil => intro _ bad e hbad post acc; simp [callMatchFunc, hbad]
  | cons r rest ih =>
    intro h bad e hbad post acc
    have hr := h r (by simp)
    simp only [List.cons_append, callMatchFunc]
    cases hv : validateResult r with
    | error e2 => rw [hv] at hr; simp [Except.isOk, Except.toBool] at hr
    | ok m =>
      dsimp only
      exact ih (fun x hx => h x (by simp [hx])) bad e hbad post (acc ++ [m])

theorem extractMatches_error (steps : List RawResult) (limit : Int) (e : Err)
    (h : callMatchFunc steps [] = .error e) : extractMatches steps limit = .error e := by
  simp [extractMatches, h]

/-! Claim theorems. -/

/-- C10: Contains with a literal empty-string pattern returns true for
every subject, including the empty subject, because the literal path is
a plain substring containment test and the empty string is a substring
of every string. -/
theorem c10_contains_empty_literal (s : List Char) : Contains s (.lit []) = .ok true := by
  cases s with
  | nil => rfl
  | cons c rest => simp [Contains, stringsContains, List.isPrefixOf]

/-- C2 counterexample: the claim says that with a bound active the
capability is never invoked beyond the bound, and that Contains stops
after the first capability call. On a well-formed matcher yielding two
matches, the driver issues three capability calls even when Match runs
with limit 1 (which returns a single object), and Contains also issues
all three calls; the claim would require one call. -/
theorem c2_counterexample :
    callMatchCalls [okStep ['a'] 0 1 [], okStep ['b'] 2 3 []] = 3
  ∧ Match ['a','b','c'] [okStep ['a'] 0 1 [], okStep ['b'] 2 3 []] (some 1)
      = .ok [⟨['a'], 0, []⟩]
  ∧ Contains ['a','b','c'] (.matcher [okStep ['a'] 0 1 [], okStep ['b'] 2 3 []]) = .ok true
  ∧ (3 : Nat) ≠ 1 := by
  refine ⟨rfl, rfl, rfl, by decide⟩

/-- C2 amended: the driver always enumerates the matcher capability to
exhaustion regardless of any bound — on a matcher that yields its
matches without a contract violation it issues one capability call per
match plus the final terminating call; a bound only truncates the
collected match list afterwards; Contains drives the matcher unbounded
(limit -1) and returns whether at least one match was collected. -/
theorem c2_amended (steps : List RawResult)
    (h : ∀ r ∈ steps, (validateResult r).isOk = true) :
    ∃ ms, callMatchFunc steps [] = .ok ms ∧ ms.length = steps.length
  ∧ callMatchCalls steps = steps.length + 1
  ∧ (∀ s : List Char, Contains s (.matcher steps) = .ok (decide (0 < steps.length)))
  ∧ (∀ n : Int, 0 ≤ n → extractMatches steps n = .ok (ms.take n.toNat)) := by
  obtain ⟨ms, hms, hlen⟩ := callMatchFunc_all_valid steps h
  refine ⟨ms, hms, hlen, callMatchCalls_all_valid steps h, ?_, ?_⟩
  · intro s
    simp only [Contains, extractMatches, hms]
    have : ¬((0 : Int) ≤ -1 ∧ (-1 : Int) < (ms.length : Int)) := by omega
    rw [if_neg this, hlen]
  · intro n hn
    simp only [extractMatches, hms]
    by_cases hlt : (0 : Int) ≤ n ∧ n < (ms.length : Int)
    · rw [if_pos hlt]
    · rw [if_neg hlt]
      have : ms.length ≤ n.toNat := by omega
      rw [List.take_of_length_le this]

/-- C2 amended, witness at a one-match matcher. -/
theorem c2_amended_witness :
    ∃ ms, callMatchFunc [okStep ['a'] 0 1 []] [] = .ok ms
  ∧ ms.length = [okStep ['a'] 0 1 []].length
  ∧ callMatchCalls [okStep ['a'] 0 1 []] = [okStep ['a'] 0 1 []].length + 1
  ∧ (∀ s : List Char, Contains s (.matcher [okStep ['a'] 0 1 []])
      = .ok (decide (0 < [okStep ['a'] 0 1 []].length)))
  ∧ (∀ n : Int, 0 ≤ n → extractMatches [okStep ['a'] 0 1 []] n
      = .ok (ms.take n.toNat)) :=
  c2_amended [okStep ['a'] 0 1 []] (by decide)

/-- C4: a structurally invalid non-terminal matcher result makes every
matcher-driven operation fail with the validation error and produce no
output: the matches accumulated before the violation are discarded
(`callMatchFunc` returns the bare error) and Contains, Split, Match and
Replace all surface the same error instead of any truncated result. -/
theorem c4_contract_violation (pre post : List RawResult) (bad : RawResult) (e : Err)
    (hpre : ∀ r ∈ pre, (validateResult r).isOk = true)
    (hbad : validateResult bad = .error e)
    (s : List Char) (lim : Option Int) (hlim : 0 ≤ lim.getD 0) (repl : Repl)
    (hrepl : repl ≠ Repl.invalid) :
    callMatchFunc (pre ++ bad :: post) [] = .error e
  ∧ Contains s (.matcher (pre ++ bad :: post)) = .error e
  ∧ Split s (.matcher (pre ++ bad :: post)) lim = .error e
  ∧ Match s (pre ++ bad :: post) lim = .error e
  ∧ Replace s (.matcher (pre ++ bad :: post)) repl lim = .error e := by
  have hcall := callMatchFunc_error_mid pre hpre bad e hbad post []
  have hext : ∀ l : Int, extractMatches (pre ++ bad :: post) l = .error e :=
    fun l => extractMatches_error _ l e hcall
  refine ⟨hcall, ?_, ?_, ?_, ?_⟩
  · simp [Contains, hext]
  · simp only [Split]
    rw [if_neg (by omega), hext]
  · simp only [Match]
    rw [if_neg (by omega), hext]
  · simp only [Replace]
    rw [if_neg (by omega)]
    match repl with
    | .lit srepl => simp [replaceMatchFunc, hext]
    | .fn f => simp [replaceMatchFunc, hext]
    | .invalid => exact absurd rfl hrepl

/-- C4 witness: one valid match followed by a result missing the groups
field. -/
theorem c4_witness :
    callMatchFunc ([okStep ['a'] 0 1 []] ++ stepNoGroups :: []) [] = .error .matchBadGroups
  ∧ Contains ['a','b'] (.matcher ([okStep ['a'] 0 1 []] ++ stepNoGroups :: []))
      = .error .matchBadGroups
  ∧ Split ['a','b'] (.matcher ([okStep ['a'] 0 1 []] ++ stepNoGroups :: [])) none
      = .error .matchBadGroups
  ∧ Match ['a','b'] ([okStep ['a'] 0 1 []] ++ stepNoGroups :: []) none
      = .error .matchBadGroups
  ∧ Replace ['a','b'] (.matcher ([okStep ['a'] 0 1 []] ++ stepNoGroups :: []))
      (.lit ['z']) none = .error .matchBadGroups :=
  c4_contract_violation [okStep ['a'] 0 1 []] [] stepNoGroups .matchBadGroups
    (by decide) rfl ['a','b'] none (by decide) (.lit ['z'])
    (fun h => Repl.noConfusion h)

/-! Helper lemmas about the token expander and literal replacement. -/

theorem expand_two_dollars (m : MatchRecord) (rest : List Char) :
    expandReplaceString m ('$' :: '$' :: rest) = '$' :: expandReplaceString m rest := by
  simp [expandReplaceString]

theorem expand_dollar_zero (m : MatchRecord) (rest : List Char) :
    expandReplaceString m ('$' :: '0' :: rest) = m.value ++ expandReplaceString m rest := by
  simp [expandReplaceString]

theorem expand_dollar_end (m : MatchRecord) : expandReplaceString m ['$'] = ['$'] := by
  simp [expandReplaceString]

theorem expand_dollar_nondigit (m : MatchRecord) (c : Char) (rest : List Char)
    (h1 : c ≠ '$') (h2 : c < '0' ∨ '9' < c) :
    expandReplaceString m ('$' :: c :: rest) = '$' :: expandReplaceString m (c :: rest) := by
  simp [expandReplaceString, h1, h2]

theorem expand_passthrough (m : MatchRecord) (c : Char) (rest : List Char) (h : c ≠ '$') :
    expandReplaceString m (c :: rest) = c :: expandReplaceString m rest := by
  cases rest with
  | nil => simp [expandReplaceString, h]
  | cons r rest2 => simp [expandReplaceString, h]

theorem stringsReplace_neg_eq_all (old new : List Char) :
    ∀ (k : Nat) (s : List Char), s.length ≤ k → ∀ n : Int, n < 0 →
    stringsReplace s old new n = replaceAllSpec s old new := by
  intro k
  induction k with
  | zero =>
    intro s hs n hn
    have hsnil : s = [] := List.eq_nil_of_length_eq_zero (Nat.le_zero.mp hs)
    subst hsnil
    simp [stringsReplace, replaceAllSpec]
  | succ k ih =>
    intro s hs n hn
    match s with
    | [] => simp [stringsReplace, replaceAllSpec]
    | c :: rest =>
      rw [stringsReplace.eq_def, replaceAllSpec.eq_def]
      rw [if_neg (by omega : ¬ n = 0)]
      dsimp only
      by_cases hp : old ≠ [] ∧ old.isPrefixOf (c :: rest)
      · rw [dif_pos hp, dif_pos hp]
        have hlold : 0 < old.length := List.length_pos.mpr hp.1
        have hdrop : ((c :: rest).drop old.length).length ≤ k := by
          simp only [List.length_drop, List.length_cons]
          simp only [List.length_cons] at hs
          omega
        rw [ih _ hdrop (n - 1) (by omega)]
      · rw [dif_neg hp, dif_neg hp]
        have hrest : rest.length ≤ k := by
          simp only [List.length_cons] at hs
          omega
        rw [ih rest hrest n hn]

/-- C5: Split with a matcher separator drives the matcher unbounded and
truncates only the finished segment list: a run with limit n (n at
least 0) returns exactly the first n segments of the unbounded run
while issuing the same number of capability calls as the unbounded run;
the unbounded result is one slice per match plus the trailing slice;
and a set negative limit is an argument error. -/
theorem c5_split_truncates_after_enumeration (s : List Char) (steps : List RawResult) :
    (∀ n : Int, 0 ≤ n →
      Split s (.matcher steps) (some n)
        = (Split s (.matcher steps) none).map (fun parts => parts.take n.toNat))
  ∧ (∀ n : Int, 0 ≤ n →
      splitCalls (.matcher steps) (some n) = splitCalls (.matcher steps) none)
  ∧ (∀ ms, extractMatches steps (-1) = .ok ms →
      Split s (.matcher steps) none = .ok (splitSegments s 0 ms))
  ∧ (∀ n : Int, n < 0 → Split s (.matcher steps) (some n) = .error .splitNegativeLimit) := by
  refine ⟨?_, ?_, ?_, ?_⟩
  · intro n hn
    simp only [Split, Option.getD]
    rw [if_neg (by omega : ¬ n < 0), if_neg (by omega : ¬ (0 : Int) < 0)]
    cases hext : extractMatches steps (-1) with
    | error e => rfl
    | ok ms =>
      simp only [Except.map]
      simp only [truncParts]
      by_cases hlt : n < ((splitSegments s 0 ms).length : Int)
      · rw [if_pos hlt]
      · rw [if_neg hlt]
        rw [List.take_of_length_le (by omega)]
  · intro n hn
    simp only [splitCalls, Option.getD]
    rw [if_neg (by omega : ¬ n < 0), if_neg (by omega : ¬ (0 : Int) < 0)]
  · intro ms hms
    simp only [Split, Option.getD]
    rw [if_neg (by omega : ¬ (0 : Int) < 0), hms]
    rfl
  · intro n hn
    simp only [Split, Option.getD]
    rw [if_pos hn]

/-- C5 witness at a one-match matcher over a three-character subject. -/
theorem c5_witness :
    Split ['a','b','c'] (.matcher [okStep ['b'] 1 2 []]) (some 1)
      = (Split ['a','b','c'] (.matcher [okStep ['b'] 1 2 []]) none).map
          (fun parts => parts.take (1 : Int).toNat)
  ∧ Split ['a','b','c'] (.matcher [okStep ['b'] 1 2 []]) (some (-1))
      = .error .splitNegativeLimit :=
  ⟨(c5_split_truncates_after_enumeration ['a','b','c'] [okStep ['b'] 1 2 []]).1 1 (by decide),
   (c5_split_truncates_after_enumeration ['a','b','c'] [okStep ['b'] 1 2 []]).2.2.2 (-1) (by decide)⟩

/-- C7: Replace with a literal pattern is an ordinary bounded
left-to-right substring substitution — Replace of string aaa, pattern a,
replacement b, limit 2 gives bba; with no limit set every occurrence is
replaced (the result coincides with the unbounded specification
`replaceAllSpec`); an empty literal pattern is an argument error; and a
callable replacement paired with a literal pattern is an argument
error. -/
theorem c7_literal_replace :
    Replace ['a','a','a'] (.lit ['a']) (.lit ['b']) (some 2) = .ok ['b','b','a']
  ∧ (∀ (src pat rep : List Char), pat ≠ [] →
      Replace src (.lit pat) (.lit rep) none = .ok (replaceAllSpec src pat rep))
  ∧ (∀ (src : List Char) (repl : Repl) (lim : Option Int), 0 ≤ lim.getD 0 →
      Replace src (.lit []) repl lim = .error .replaceEmptyPattern)
  ∧ (∀ (src pat : List Char) (f : MatchObj → Option (List Char)) (lim : Option Int),
      0 ≤ lim.getD 0 → pat ≠ [] →
      Replace src (.lit pat) (.fn f) lim = .error .replaceReplNotString) := by
  refine ⟨?_, ?_, ?_, ?_⟩
  · simp [Replace, replaceString, stringsReplace, List.isPrefixOf]
  · intro src pat rep hpat
    simp only [Replace, Option.getD]
    rw [if_neg (by omega : ¬ (0 : Int) < 0)]
    simp only [replaceString]
    rw [if_neg hpat]
    rw [stringsReplace_neg_eq_all pat rep src.length src (le_refl _) (-1) (by omega)]
  · intro src repl lim hlim
    simp only [Replace]
    rw [if_neg (by omega)]
    simp [replaceString]
  · intro src pat f lim hlim hpat
    simp only [Replace]
    rw [if_neg (by omega)]
    simp only [replaceString]
    rw [if_neg hpat]

/-- C7 witness: unbounded literal replacement, the empty-pattern error
and the callable-replacement error at concrete inputs. -/
theorem c7_witness :
    Replace ['a','b','a'] (.lit ['b']) (.lit ['c','c']) none
      = .ok (replaceAllSpec ['a','b','a'] ['b'] ['c','c'])
  ∧ Replace ['a'] (.lit []) (.lit ['b']) none = .error .replaceEmptyPattern
  ∧ Replace ['a'] (.lit ['a']) (.fn (fun _ => some ['z'])) none
      = .error .replaceReplNotString :=
  ⟨c7_literal_replace.2.1 ['a','b','a'] ['b'] ['c','c'] (by decide),
   c7_literal_replace.2.2.1 ['a'] (.lit ['b']) none (by decide),
   c7_literal_replace.2.2.2 ['a'] ['a'] (fun _ => some ['z']) none (by decide) (by decide)⟩

/-- C9: token expansion of the non-group-reference tokens: two dollars
emit one literal dollar consuming both characters (so no group
substitution occurs in the string dollar-dollar-one, which expands to
dollar-one); dollar-zero emits the full matched text; a dollar followed
by a non-digit non-dollar character, or at end of string, emits a
literal dollar without consuming the following character; all
characters outside tokens pass through unchanged in order; and the
concrete examples of the spec hold. -/
theorem c9_token_expansion :
    (∀ (m : MatchRecord) (rest : List Char),
      expandReplaceString m ('$' :: '$' :: rest) = '$' :: expandReplaceString m rest)
  ∧ (∀ (m : MatchRecord) (rest : List Char),
      expandReplaceString m ('$' :: '0' :: rest) = m.value ++ expandReplaceString m rest)
  ∧ (∀ m : MatchRecord, expandReplaceString m ['$'] = ['$'])
  ∧ (∀ (m : MatchRecord) (c : Char) (rest : List Char), c ≠ '$' → (c < '0' ∨ '9' < c) →
      expandReplaceString m ('$' :: c :: rest) = '$' :: expandReplaceString m (c :: rest))
  ∧ (∀ (m : MatchRecord) (c : Char) (rest : List Char), c ≠ '$' →
      expandReplaceString m (c :: rest) = c :: expandReplaceString m rest)
  ∧ expandReplaceString ⟨['X'], (0, 1), [['Y']]⟩ ['$','0','-','$','1'] = ['X','-','Y']
  ∧ (∀ m : MatchRecord, expandReplaceString m ['$','$','1'] = ['$','1'])
  ∧ (∀ m : MatchRecord, expandReplaceString m ['a','$'] = ['a','$']) := by
  refine ⟨expand_two_dollars, expand_dollar_zero, expand_dollar_end,
    expand_dollar_nondigit, expand_passthrough, ?_, ?_, ?_⟩
  · simp [expandReplaceString, groupSearch, runesToNumbers, digitsVal, runeVal, isDigitCh]
  · intro m
    rw [expand_two_dollars]
    simp [expandReplaceString]
  · intro m
    rw [expand_passthrough m 'a' ['$'] (by decide), expand_dollar_end]

/-- C9 witness: the hypothesis-bearing conjuncts applied at concrete
characters. -/
theorem c9_witness :
    expandReplaceString ⟨[], (0, 0), []⟩ ['$','x']
      = '$' :: expandReplaceString ⟨[], (0, 0), []⟩ ['x']
  ∧ expandReplaceString ⟨[], (0, 0), []⟩ ['x','y']
      = 'x' :: expandReplaceString ⟨[], (0, 0), []⟩ ['y'] :=
  ⟨c9_token_expansion.2.2.2.1 ⟨[], (0, 0), []⟩ 'x' [] (by decide) (Or.inr (by decide)),
   c9_token_expansion.2.2.2.2.1 ⟨[], (0, 0), []⟩ 'x' ['y'] (by decide)⟩

/-! Helper lemmas about well-formed match chains and Go slices. -/

theorem chainOK_cons (pos len : Int) (m : MatchRecord) (rest : List MatchRecord) :
    chainOK pos (m :: rest) len = true ↔
      pos ≤ m.indexes.1 ∧ m.indexes.1 ≤ m.indexes.2 ∧ chainOK m.indexes.2 rest len = true := by
  simp [chainOK, and_assoc]

theorem chainOK_le : ∀ (ms : List MatchRecord) (pos len : Int),
    chainOK pos ms len = true → pos ≤ len := by
  intro ms
  induction ms with
  | nil => intro pos len h; simpa [chainOK] using h
  | cons m rest ih =>
    intro pos len h
    obtain ⟨h1, h2, h3⟩ := (chainOK_cons pos len m rest).mp h
    have := ih m.indexes.2 len h3
    omega

theorem chainOK_mono : ∀ (ms : List MatchRecord) (pos len len2 : Int),
    chainOK pos ms len = true → len ≤ len2 → chainOK pos ms len2 = true := by
  intro ms
  induction ms with
  | nil =>
    intro pos len len2 h hle
    simp only [chainOK, decide_eq_true_eq] at h ⊢
    omega
  | cons m rest ih =>
    intro pos len len2 h hle
    obtain ⟨h1, h2, h3⟩ := (chainOK_cons pos len m rest).mp h
    exact (chainOK_cons pos len2 m rest).mpr ⟨h1, h2, ih m.indexes.2 len len2 h3 hle⟩

theorem chainOK_append_singleton : ∀ (ms : List MatchRecord) (pos len : Int) (mk : MatchRecord),
    chainOK pos (ms ++ [mk]) len = true →
    chainOK pos ms mk.indexes.1 = true ∧ mk.indexes.1 ≤ mk.indexes.2 ∧ mk.indexes.2 ≤ len := by
  intro ms
  induction ms with
  | nil =>
    intro pos len mk h
    obtain ⟨h1, h2, h3⟩ := (chainOK_cons pos len mk []).mp h
    simp only [chainOK, decide_eq_true_eq] at h3 ⊢
    exact ⟨h1, h2, h3⟩
  | cons m rest ih =>
    intro pos len mk h
    obtain ⟨h1, h2, h3⟩ := (chainOK_cons pos len m (rest ++ [mk])).mp h
    obtain ⟨h4, h5, h6⟩ := ih m.indexes.2 len mk h3
    exact ⟨(chainOK_cons pos mk.indexes.1 m rest).mpr ⟨h1, h2, h4⟩, h5, h6⟩

theorem goTake_length (s : List Char) (j : Int) (h1 : 0 ≤ j) (h2 : j ≤ (s.length : Int)) :
    (goTake s j).length = j.toNat := by
  simp only [goTake, List.length_take]
  omega

theorem goSlice_append_goDrop (s : List Char) (i j : Int)
    (h1 : 0 ≤ i) (h2 : i ≤ j) (h3 : j ≤ (s.length : Int)) :
    goSlice s i j ++ goDrop s j = goDrop s i := by
  have hlen : i.toNat ≤ (List.take j.toNat s).length := by
    rw [List.length_take]
    omega
  simp only [goSlice, goDrop]
  conv_rhs => rw [← List.take_append_drop j.toNat s, List.drop_append_of_le_length hlen]

theorem interleave_segments : ∀ (ms : List MatchRecord) (s : List Char) (pos : Int),
    0 ≤ pos → chainOK pos ms (s.length : Int) = true →
    (∀ m ∈ ms, m.value = goSlice s m.indexes.1 m.indexes.2) →
    interleave (splitSegments s pos ms) (ms.map (fun m => m.value)) = goDrop s pos := by
  intro ms
  induction ms with
  | nil => intro s pos h0 hch hv; simp [splitSegments, interleave]
  | cons m rest ih =>
    intro s pos h0 hch hv
    obtain ⟨h1, h2, h3⟩ := (chainOK_cons pos (s.length : Int) m rest).mp hch
    have hlen : m.indexes.2 ≤ (s.length : Int) := chainOK_le rest m.indexes.2 _ h3
    simp only [splitSegments, List.map, interleave]
    rw [hv m (by simp), ih s m.indexes.2 (by omega) h3 (fun x hx => hv x (by simp [hx]))]
    rw [List.append_assoc]
    rw [goSlice_append_goDrop s m.indexes.1 m.indexes.2 (by omega) h2 hlen]
    rw [goSlice_append_goDrop s pos m.indexes.1 h0 h1 (by omega)]

/-- C6: for every subject and matcher whose match records are
well-formed (forward progressing, in bounds, each value equal to the
text of its span), the unbounded Split equals the segment list, and
concatenating those segments interleaved with the matched separator
texts reconstructs the subject exactly. -/
theorem c6_split_round_trip (s : List Char) (steps : List RawResult) (ms : List MatchRecord)
    (hok : extractMatches steps (-1) = .ok ms)
    (hch : chainOK 0 ms (s.length : Int) = true)
    (hval : ∀ m ∈ ms, m.value = goSlice s m.indexes.1 m.indexes.2) :
    Split s (.matcher steps) none = .ok (splitSegments s 0 ms)
  ∧ interleave (splitSegments s 0 ms) (ms.map (fun m => m.value)) = s := by
  constructor
  · simp only [Split, Option.getD]
    rw [if_neg (by omega : ¬ (0 : Int) < 0), hok]
    rfl
  · rw [interleave_segments ms s 0 (le_refl 0) hch hval]
    simp [goDrop]

/-- C6 witness at a one-match matcher whose record carries the real
span text. -/
theorem c6_witness :
    Split ['x','a','y'] (.matcher [okStep ['a'] 1 2 []]) none
      = .ok (splitSegments ['x','a','y'] 0 [⟨['a'], (1, 2), []⟩])
  ∧ interleave (splitSegments ['x','a','y'] 0 [⟨['a'], (1, 2), []⟩])
      (([⟨['a'], (1, 2), []⟩] : List MatchRecord).map (fun m => m.value)) = ['x','a','y'] :=
  c6_split_round_trip ['x','a','y'] [okStep ['a'] 1 2 []] [⟨['a'], (1, 2), []⟩]
    rfl (by decide) (by decide)

/-! Helper lemmas for the reverse-order replacement loop. -/

theorem replacedConcat_splice (rho : MatchRecord → List Char) (src : List Char) (mk : MatchRecord)
    (hs0 : 0 ≤ mk.indexes.1) (hse : mk.indexes.1 ≤ mk.indexes.2)
    (hel : mk.indexes.2 ≤ (src.length : Int)) :
    ∀ (z : List MatchRecord) (pos : Int), 0 ≤ pos → chainOK pos z mk.indexes.1 = true →
    replacedConcat rho (goTake src mk.indexes.1 ++ rho mk ++ goDrop src mk.indexes.2) pos z
      = replacedConcat rho src pos (z ++ [mk]) := by
  intro z
  induction z with
  | nil =>
    intro pos h0 hch
    simp only [chainOK, decide_eq_true_eq] at hch
    have hTlen : pos.toNat ≤ (goTake src mk.indexes.1).length := by
      rw [goTake_length src mk.indexes.1 hs0 (by omega)]
      omega
    simp only [replacedConcat, List.nil_append]
    simp only [goDrop, goSlice, goTake] at hTlen ⊢
    rw [List.append_assoc, List.drop_append_of_le_length hTlen, List.append_assoc]
  | cons m z ih =>
    intro pos h0 hch
    obtain ⟨h1, h2, h3⟩ := (chainOK_cons pos mk.indexes.1 m z).mp hch
    have hmk : m.indexes.2 ≤ mk.indexes.1 := chainOK_le z m.indexes.2 _ h3
    simp only [replacedConcat, List.cons_append]
    rw [ih m.indexes.2 (by omega) h3]
    have hmT : m.indexes.1.toNat ≤ (goTake src mk.indexes.1).length := by
      rw [goTake_length src mk.indexes.1 hs0 (by omega)]
      omega
    congr 1
    simp only [goSlice, goTake] at hmT ⊢
    rw [List.append_assoc, List.take_append_of_le_length hmT, List.take_take]
    have hmin : min m.indexes.1.toNat mk.indexes.1.toNat = m.indexes.1.toNat := by omega
    rw [hmin]

theorem replaceLoop_concat (rho : MatchRecord → List Char)
    (getRepl : MatchRecord → Except Err (List Char)) :
    ∀ (ms : List MatchRecord) (src : List Char),
    chainOK 0 ms (src.length : Int) = true →
    (∀ m ∈ ms, getRepl m = .ok (rho m)) →
    replaceLoop getRepl src ms.reverse = .ok (replacedConcat rho src 0 ms) := by
  intro ms
  induction ms using List.reverseRecOn with
  | nil =>
    intro src hch hget
    simp [replaceLoop, replacedConcat, goDrop]
  | append_singleton z mk ih =>
    intro src hch hget
    obtain ⟨hchz, hse, hel⟩ := chainOK_append_singleton z 0 (src.length : Int) mk hch
    have hs0 : 0 ≤ mk.indexes.1 := chainOK_le z 0 mk.indexes.1 hchz
    rw [List.reverse_append]
    simp only [List.reverse_cons, List.reverse_nil, List.nil_append, List.singleton_append]
    simp only [replaceLoop]
    rw [hget mk (by simp)]
    dsimp only
    have hchz2 : chainOK 0 z
        (((goTake src mk.indexes.1 ++ rho mk ++ goDrop src mk.indexes.2).length : Nat) : Int)
        = true := by
      refine chainOK_mono z 0 mk.indexes.1 _ hchz ?_
      simp only [List.length_append]
      rw [goTake_length src mk.indexes.1 hs0 (by omega)]
      omega
    rw [ih (goTake src mk.indexes.1 ++ rho mk ++ goDrop src mk.indexes.2) hchz2
      (fun x hx => hget x (by simp [hx]))]
    rw [replacedConcat_splice rho src mk hs0 hse hel z 0 (le_refl 0) hchz]

/-- C1: with a matcher pattern, Replace applies the substitutions from
the last match to the first directly in the offset space of the
original subject, so for every chain of non-overlapping
forward-progressing matches the output is the interleaving
`src[0:start 1] ++ repl 1 ++ src[end 1:start 2] ++ ... ++ src[end k:]`
(for a literal replacement, with per-match expansion when it contains a
dollar sign, and likewise for a replacement callable), and in
particular the first replacement text begins at its match's original
start offset in the output. -/
theorem c1_reverse_order_replacement (src : List Char) (steps : List RawResult)
    (srepl : List Char) (limit : Int) (ms : List MatchRecord)
    (hms : extractMatches steps limit = .ok ms)
    (hch : chainOK 0 ms (src.length : Int) = true) :
    replaceMatchFunc src steps (.lit srepl) limit
      = .ok (replacedConcat
          (fun m => if srepl.contains '$' then expandReplaceString m srepl else srepl)
          src 0 ms)
  ∧ (∀ (f : MatchObj → Option (List Char)) (rho : MatchRecord → List Char),
      (∀ m ∈ ms, f ⟨m.value, m.indexes.1, m.groups⟩ = some (rho m)) →
      replaceMatchFunc src steps (.fn f) limit = .ok (replacedConcat rho src 0 ms))
  ∧ (∀ mk rest, ms = mk :: rest →
      goTake (replacedConcat
          (fun m => if srepl.contains '$' then expandReplaceString m srepl else srepl)
          src 0 ms) mk.indexes.1
        = goTake src mk.indexes.1
      ∧ goSlice (replacedConcat
          (fun m => if srepl.contains '$' then expandReplaceString m srepl else srepl)
          src 0 ms) mk.indexes.1
          (mk.indexes.1
            + (((if srepl.contains '$' then expandReplaceString mk srepl else srepl).length : Nat) : Int))
        = (if srepl.contains '$' then expandReplaceString mk srepl else srepl)) := by
  refine ⟨?_, ?_, ?_⟩
  · simp only [replaceMatchFunc, hms]
    exact replaceLoop_concat _ _ ms src hch (fun m _ => rfl)
  · intro f rho hf
    simp only [replaceMatchFunc, hms]
    refine replaceLoop_concat rho _ ms src hch (fun m hm => ?_)
    rw [hf m hm]
  · intro mk rest hcons
    subst hcons
    obtain ⟨h1, h2, h3⟩ := (chainOK_cons 0 (src.length : Int) mk rest).mp hch
    have hklen : mk.indexes.2 ≤ (src.length : Int) := chainOK_le rest mk.indexes.2 _ h3
    set rep := if srepl.contains '$' then expandReplaceString mk srepl else srepl with hrep
    have hsl : goSlice src 0 mk.indexes.1 = goTake src mk.indexes.1 := by
      simp [goSlice, goTake]
    have h4 : (List.take mk.indexes.1.toNat src).length = mk.indexes.1.toNat := by
      rw [List.length_take]
      omega
    constructor
    · simp only [replacedConcat, goSlice, goTake, Int.toNat_zero, List.drop_zero]
      rw [List.append_assoc, List.take_append_eq_append_take]
      have h7 : mk.indexes.1.toNat - (List.take mk.indexes.1.toNat src).length = 0 := by
        omega
      rw [h7, List.take_zero, List.append_nil, List.take_take, min_self]
    · simp only [replacedConcat, goSlice, goTake, Int.toNat_zero, List.drop_zero]
      have h6 : (mk.indexes.1 + (rep.length : Int)).toNat
          = mk.indexes.1.toNat + rep.length := by omega
      rw [List.append_assoc, h6, List.take_append_eq_append_take]
      have h5 : List.take (mk.indexes.1.toNat + rep.length) (List.take mk.indexes.1.toNat src)
          = List.take mk.indexes.1.toNat src := List.take_of_length_le (by omega)
      have h7 : mk.indexes.1.toNat + rep.length - (List.take mk.indexes.1.toNat src).length
          = rep.length := by omega
      rw [h5, h7, List.take_left' rfl, List.drop_left' h4]

/-- C1 witness: a single match with a literal replacement over a
three-character subject. -/
theorem c1_witness :
    replaceMatchFunc ['a','b','c'] [okStep ['b'] 1 2 []] (.lit ['z']) (-1)
      = .ok (replacedConcat
          (fun m => if List.contains ['z'] '$' then expandReplaceString m ['z'] else ['z'])
          ['a','b','c'] 0 [⟨['b'], (1, 2), []⟩]) :=
  (c1_reverse_order_replacement ['a','b','c'] [okStep ['b'] 1 2 []] ['z'] (-1)
    [⟨['b'], (1, 2), []⟩] (by rfl) (by decide)).1

/-! Helper lemmas about the slice bound conditions. -/

theorem splitSlicesOk_of_chain : ∀ (ms : List MatchRecord) (s : List Char) (pos : Int),
    0 ≤ pos → chainOK pos ms (s.length : Int) = true → splitSlicesOk s pos ms = true := by
  intro ms
  induction ms with
  | nil =>
    intro s pos h0 hch
    simp only [chainOK, decide_eq_true_eq] at hch
    simp only [splitSlicesOk, Bool.and_eq_true, decide_eq_true_eq]
    omega
  | cons m rest ih =>
    intro s pos h0 hch
    obtain ⟨h1, h2, h3⟩ := (chainOK_cons pos (s.length : Int) m rest).mp hch
    have hlen : m.indexes.2 ≤ (s.length : Int) := chainOK_le rest m.indexes.2 _ h3
    simp only [splitSlicesOk, Bool.and_eq_true, decide_eq_true_eq]
    exact ⟨⟨⟨h0, h1⟩, by omega⟩, ih s m.indexes.2 (by omega) h3⟩

theorem replaceSlicesOk_of_chain : ∀ (ms : List MatchRecord) (L : Int)
    (rho : MatchRecord → Nat),
    (∃ X : Int, chainOK 0 ms X = true ∧ X ≤ L) →
    replaceSlicesOk L (ms.reverse.map (fun m => (m, rho m))) = true := by
  intro ms
  induction ms using List.reverseRecOn with
  | nil => intro L rho _; rfl
  | append_singleton z mk ih =>
    intro L rho hex
    obtain ⟨X, hch, hXL⟩ := hex
    obtain ⟨hchz, hse, heX⟩ := chainOK_append_singleton z 0 X mk hch
    have hs0 : 0 ≤ mk.indexes.1 := chainOK_le z 0 mk.indexes.1 hchz
    rw [List.reverse_append]
    simp only [List.reverse_cons, List.reverse_nil, List.nil_append, List.singleton_append,
      List.map_cons]
    simp only [replaceSlicesOk, Bool.and_eq_true, decide_eq_true_eq]
    refine ⟨⟨⟨⟨hs0, by omega⟩, by omega⟩, by omega⟩, ?_⟩
    exact ih _ rho ⟨mk.indexes.1, hchz, by omega⟩

/-- C8 counterexample: the driver accepts any well-typed record without
range validation — a matcher result with span 5 to 7 is accepted as a
match even though the span exceeds a two-character subject, and the
bound conditions Go imposes on the Split slice expressions fail for it
(Go would panic), refuting the claim that every accepted record
satisfies the bounds. -/
theorem c8_counterexample :
    extractMatches [okStep ['x','y'] 5 7 []] (-1) = .ok [⟨['x','y'], (5, 7), []⟩]
  ∧ ¬((7 : Int) ≤ ((['a','b'] : List Char).length : Int))
  ∧ splitSlicesOk ['a','b'] 0 [⟨['x','y'], (5, 7), []⟩] = false :=
  ⟨rfl, by decide, rfl⟩

/-- C8 amended: the driver validates only the types of the fields, so
accepted records may carry arbitrary offsets; however, for every match
sequence that does satisfy the invariant (forward progressing with
offsets within the subject), the slice expressions evaluated by Split
and by the Replace loop all meet the Go bound conditions, whatever the
replacement lengths, so the slicing never faults there. -/
theorem c8_amended (s : List Char) (ms : List MatchRecord)
    (hch : chainOK 0 ms (s.length : Int) = true) :
    splitSlicesOk s 0 ms = true
  ∧ (∀ rho : MatchRecord → Nat,
      replaceSlicesOk (s.length : Int) (ms.reverse.map (fun m => (m, rho m))) = true) :=
  ⟨splitSlicesOk_of_chain ms s 0 (le_refl 0) hch,
   fun rho => replaceSlicesOk_of_chain ms (s.length : Int) rho
     ⟨(s.length : Int), hch, le_refl _⟩⟩

/-- C8 amended, witness at a one-match matcher with a two-character
replacement length. -/
theorem c8_amended_witness :
    splitSlicesOk ['a','b','c'] 0 [⟨['b'], (1, 2), []⟩] = true
  ∧ replaceSlicesOk (((['a','b','c'] : List Char).length : Nat) : Int)
      (([⟨['b'], (1, 2), []⟩] : List MatchRecord).reverse.map (fun m => (m, 2))) = true :=
  ⟨(c8_amended ['a','b','c'] [⟨['b'], (1, 2), []⟩] (by decide)).1,
   (c8_amended ['a','b','c'] [⟨['b'], (1, 2), []⟩] (by decide)).2 (fun _ => 2)⟩

/-! Helper lemmas about the digit-run group reference resolution. -/

theorem runesToNumbers_length (rs : List Char) :
    (runesToNumbers rs).length = rs.length := by
  simp [runesToNumbers]

theorem runesToNumbers_getD (rs : List Char) (j : Nat) (h : j < rs.length) :
    (runesToNumbers rs).getD j 0 = digitsVal (rs.take (j + 1)) := by
  simp only [runesToNumbers, List.getD_eq_getElem?_getD, List.getElem?_map]
  rw [List.getElem?_range h]
  rfl

theorem groupSearch_some : ∀ (fuel : Nat) (indexes : List Int) (groups : List (List Char))
    (i : Nat) (g : List Char),
    groupSearch indexes groups fuel = some (i, g) →
    i < fuel ∧ (indexes.getD i 0 - 1 < (groups.length : Int))
      ∧ g = groups.getD (indexes.getD i 0 - 1).toNat []
      ∧ ∀ j, i < j → j < fuel → ¬(indexes.getD j 0 - 1 < (groups.length : Int)) := by
  intro fuel
  induction fuel with
  | zero => intro indexes groups i g h; simp [groupSearch] at h
  | succ f ih =>
    intro indexes groups i g h
    simp only [groupSearch] at h
    by_cases hc : indexes.getD f 0 - 1 < (groups.length : Int)
    · rw [if_pos hc] at h
      simp only [Option.some.injEq, Prod.mk.injEq] at h
      obtain ⟨hi, hg⟩ := h
      subst hi
      refine ⟨by omega, hc, hg.symm, fun j hij hjf => ?_⟩
      omega
    · rw [if_neg hc] at h
      obtain ⟨h1, h2, h3, h4⟩ := ih indexes groups i g h
      refine ⟨by omega, h2, h3, fun j hij hjf => ?_⟩
      by_cases hj : j = f
      · subst hj; exact hc
      · exact h4 j hij (by omega)

theorem groupSearch_none : ∀ (fuel : Nat) (indexes : List Int) (groups : List (List Char)),
    groupSearch indexes groups fuel = none →
    ∀ j, j < fuel → ¬(indexes.getD j 0 - 1 < (groups.length : Int)) := by
  intro fuel
  induction fuel with
  | zero => intro indexes groups _ j hj; omega
  | succ f ih =>
    intro indexes groups h j hj
    simp only [groupSearch] at h
    by_cases hc : indexes.getD f 0 - 1 < (groups.length : Int)
    · rw [if_pos hc] at h; cases h
    · rw [if_neg hc] at h
      by_cases hjf : j = f
      · subst hjf; exact hc
      · exact ih indexes groups h j (by omega)

/-- C3 counterexample: the claim says that when no digit prefix is a
valid group index, a literal dollar is emitted and no digit is
consumed, so expanding the two-character string dollar-nine against a
match with no captured groups would have to produce that same string.
The code instead drops both the dollar and the first digit and emits
nothing: the result is empty. -/
theorem c3_counterexample :
    expandReplaceString ⟨['x'], (0, 1), []⟩ ['$','9'] = []
  ∧ ([] : List Char) ≠ ['$','9'] := by
  constructor
  · simp [expandReplaceString, groupSearch, runesToNumbers, digitsVal, runeVal, isDigitCh]
  · decide

/-- C3 amended: a dollar followed by a run of decimal digits is
resolved by trying prefixes of the run longest first, accepting the
first prefix whose 1-based value minus one is below the captured-group
count, consuming exactly that many digits and emitting the group value;
but when no prefix is valid, the dollar and the FIRST digit are both
discarded with nothing emitted, and only the remaining digits are
re-scanned as ordinary text. The search is characterised through
`digitsVal` of each prefix; the bound of 18 digits keeps the decimal
values inside the range where the unbounded `Int` model agrees with the
wrapping 64-bit Go int arithmetic of `runesToNumbers`. -/
theorem c3_amended (m : MatchRecord) (d : Char) (ds rest : List Char)
    (hd : isDigitCh d = true) (hd0 : d ≠ '0')
    (hds : ∀ c ∈ ds, isDigitCh c = true)
    (hrest : rest.takeWhile isDigitCh = [])
    (hlen : (d :: ds).length ≤ 18) :
    (expandReplaceString m ('$' :: ((d :: ds) ++ rest))
      = match groupSearch (runesToNumbers (d :: ds)) m.groups
            (runesToNumbers (d :: ds)).length with
        | some ig => ig.2 ++ expandReplaceString m ((d :: ds).drop (ig.1 + 1) ++ rest)
        | none => expandReplaceString m (ds ++ rest))
  ∧ (∀ (i : Nat) (g : List Char),
      groupSearch (runesToNumbers (d :: ds)) m.groups
          (runesToNumbers (d :: ds)).length = some (i, g) →
      i < (d :: ds).length
      ∧ digitsVal ((d :: ds).take (i + 1)) - 1 < (m.groups.length : Int)
      ∧ g = m.groups.getD (digitsVal ((d :: ds).take (i + 1)) - 1).toNat []
      ∧ ∀ j, i < j → j < (d :: ds).length →
          ¬(digitsVal ((d :: ds).take (j + 1)) - 1 < (m.groups.length : Int)))
  ∧ (groupSearch (runesToNumbers (d :: ds)) m.groups
        (runesToNumbers (d :: ds)).length = none →
      ∀ j, j < (d :: ds).length →
        ¬(digitsVal ((d :: ds).take (j + 1)) - 1 < (m.groups.length : Int))) := by
  have hds' : ∀ c ∈ d :: ds, isDigitCh c = true := by
    intro c hc
    rcases List.mem_cons.mp hc with hc | hc
    · subst hc; exact hd
    · exact hds c hc
  have hne : d ≠ '$' := by
    intro h
    subst h
    simp [isDigitCh] at hd
  have hdig : ¬(d < '0' ∨ '9' < d) := by
    simp only [isDigitCh, Bool.not_eq_true', Bool.or_eq_false_iff,
      decide_eq_false_iff_not] at hd
    exact not_or.mpr hd
  have htw : List.takeWhile isDigitCh (d :: (ds ++ rest)) = d :: ds := by
    rw [← List.cons_append, List.takeWhile_append_of_pos hds', hrest, List.append_nil]
  refine ⟨?_, ?_, ?_⟩
  · simp only [List.cons_append]
    simp only [expandReplaceString]
    rw [if_pos trivial, if_neg hne, if_neg hdig, if_neg hd0, htw]
    cases hgs : groupSearch (runesToNumbers (d :: ds)) m.groups
        (runesToNumbers (d :: ds)).length with
    | none => rfl
    | some ig =>
      dsimp only
      congr 1
      have hi : ig.1 < (d :: ds).length := by
        have := (groupSearch_some _ _ _ _ _ hgs).1
        rwa [runesToNumbers_length] at this
      rw [← List.cons_append, List.drop_append_of_le_length (by omega)]
  · intro i g hgs
    obtain ⟨h1, h2, h3, h4⟩ := groupSearch_some _ _ _ _ _ hgs
    rw [runesToNumbers_length] at h1
    rw [runesToNumbers_getD (d :: ds) i (by omega)] at h2 h3
    refine ⟨h1, h2, h3, fun j hij hjl => ?_⟩
    have := h4 j hij (by rwa [runesToNumbers_length])
    rwa [runesToNumbers_getD (d :: ds) j (by omega)] at this
  · intro hgs j hjl
    have := groupSearch_none _ _ _ hgs j (by rwa [runesToNumbers_length])
    rwa [runesToNumbers_getD (d :: ds) j (by omega)] at this

/-- C3 amended, witness: a single digit one with one captured group. -/
theorem c3_amended_witness :
    expandReplaceString ⟨['x'], (0, 1), [['G']]⟩ ('$' :: (('1' :: []) ++ []))
      = match groupSearch (runesToNumbers ('1' :: [])) [['G']]
            (runesToNumbers ('1' :: [])).length with
        | some ig =>
            ig.2 ++ expandReplaceString ⟨['x'], (0, 1), [['G']]⟩
              (('1' :: []).drop (ig.1 + 1) ++ [])
        | none => expandReplaceString ⟨['x'], (0, 1), [['G']]⟩ ([] ++ []) :=
  (c3_amended ⟨['x'], (0, 1), [['G']]⟩ '1' [] [] (by decide) (by decide)
    (by decide) (by decide) (by decide)).1

end JlibStr
